import Mathlib

/-!
Verification of the batch sanitization pipeline (`src/pipeline.py`) of the
fine-tune-llmv1 repository, by a shallow embedding of its operations.

Conventions of the embedding:
* Document lines and span texts are modelled as `List Char` (a Python `str`
  is a sequence of characters; the pipeline treats lines as opaque character
  sequences).
* The external generation service together with JSON parsing
  (`model.generate_content` + `clean_json_text` + `json.loads`, pipeline.py
  lines 78-88) is a black box.  Each attempt either yields a parsed JSON
  value or raises an exception carrying a message string, so an attempt's
  outcome is modelled by `Outcome`: `parsed v` (the response text parsed to
  the JSON value `v`) or `raised msg` (any exception, API error or JSON
  decode error, with `msg = str(e)`).
* Parsed JSON values are modelled by `JVal`; `json.loads` can return
  non-string items inside a list, which is why `process_dataset` later
  stringifies non-`str` entries (pipeline.py lines 210-214).
* The acceptance test `len(batch_results) >= len(batch) * 0.9`
  (pipeline.py line 95) is a Python float comparison between an integer and
  `K * 0.9`.  For every batch size in range (the product `K * 0.9` rounds to
  the double nearest `9K/10`, and the integer grid is far coarser than the
  rounding error for all `K` up to 2^49), the comparison coincides with the
  exact rational comparison `10 * m >= 9 * K`, which is how it is embedded.
* The unbounded `while retries < max_retries` loop (whose rate-limit branch
  restores the retry budget, so the loop is not structurally terminating) is
  embedded fuel-indexed: one unit of fuel per loop iteration; `none` means
  the fuel was exhausted while the loop was still running.
-/

/-- Parsed JSON values, as returned by `json.loads` (pipeline.py line 88).
Only the distinctions the pipeline inspects are kept: being a list
(`isinstance(batch_results, list)`, line 91) and, per item, being a string
(`isinstance(safe_text, str)`, line 210). -/
inductive JVal where
  | jstr (s : List Char)
  | jnum (n : Int)
  | jlist (xs : List JVal)
  | jnull

/-- Outcome of one service attempt, after fence-stripping and JSON parsing:
either a parsed value or a raised exception with its message `str(e)`. -/
inductive Outcome where
  | parsed (v : JVal)
  | raised (msg : List Char)

/-- `needle in hay` for Python strings: `needle` occurs as a contiguous
substring of `hay`. -/
def containsSub (needle hay : List Char) : Bool :=
  hay.tails.any (fun t => needle.isPrefixOf t)

/-- Python `str.lower`, restricted to its effect on ASCII letters (the
needle searched for is the ASCII word "quota"). -/
def lowerStr (s : List Char) : List Char :=
  s.map Char.toLower

/-- Rate-limit classification of an error message (pipeline.py line 115):
`"429" in error_str or "quota" in error_str.lower()`. -/
def isRateLimitMsg (msg : List Char) : Bool :=
  containsSub "429".toList msg || containsSub "quota".toList (lowerStr msg)

/-- Repair of an accepted but length-mismatched response
(pipeline.py lines 96-101): truncate extra items from the end, or pad the
missing trailing positions with the corresponding original batch items. -/
def repair (batch : List (List Char)) (xs : List JVal) : List JVal :=
  if xs.length > batch.length then xs.take batch.length
  else xs ++ (batch.drop xs.length).map JVal.jstr

/-- Python `str` of a natural number, as used in the f-string
`f"Too few items: {len(batch_results)}/{len(batch)}"`. -/
def natStr (n : Nat) : List Char :=
  (toString n).toList

/-- Validation of one attempt's outcome (pipeline.py lines 87-108): a raised
exception propagates its message; a non-list parse raises
`ValueError("Output is not a list")`; a list with at least 90% of the
expected items is accepted and repaired to exact size; a shorter list raises
`ValueError(f"Too few items: {m}/{K}")`. -/
def attempt (batch : List (List Char)) (o : Outcome) : Except (List Char) (List JVal) :=
  match o with
  | .raised msg => .error msg
  | .parsed v =>
    match v with
    | .jlist xs =>
      if 10 * xs.length ≥ 9 * batch.length then .ok (repair batch xs)
      else .error ("Too few items: ".toList ++ natStr xs.length ++ "/".toList ++ natStr batch.length)
    | _ => .error "Output is not a list".toList

/-- The retry budget `max_retries = 2` (pipeline.py line 66). -/
def maxRetries : Nat := 2

/-- The `while retries < max_retries` loop of `process_batch_with_retry`
(pipeline.py lines 68-128), fuel-indexed with one unit of fuel per
iteration.  `outcomes i` is the outcome of the `i`-th attempt; the state is
the next attempt index `i` and the current `retries` counter.  On success
the result and the number of attempts made are returned; when the budget is
exhausted the original batch is returned unchanged (line 128).  A rate-limit
classified error re-enters the loop without consuming budget (lines
115-120); any other error increments `retries`.  `none` means the fuel ran
out with the loop still running. -/
def runLoop (batch : List (List Char)) (outcomes : Nat → Outcome) :
    Nat → Nat → Nat → Option (List JVal × Nat)
  | 0, _, _ => none
  | fuel + 1, i, retries =>
    if retries < maxRetries then
      match attempt batch (outcomes i) with
      | .ok res => some (res, i + 1)
      | .error msg =>
        if isRateLimitMsg msg then runLoop batch outcomes fuel (i + 1) retries
        else runLoop batch outcomes fuel (i + 1) (retries + 1)
    else some (batch.map JVal.jstr, i)

/-- `process_batch_with_retry(batch, batch_idx)` (pipeline.py lines 63-128):
run the retry loop from attempt 0 with a fresh retry budget.  The result, if
the loop finishes within `fuel` iterations, is the returned list paired with
the number of service attempts that were made. -/
def process_batch_with_retry (batch : List (List Char)) (outcomes : Nat → Outcome)
    (fuel : Nat) : Option (List JVal × Nat) :=
  runLoop batch outcomes fuel 0 0

/-- The retry loop terminates on the given service behavior: some amount of
fuel suffices for it to return a result. -/
def loopTerminates (batch : List (List Char)) (outcomes : Nat → Outcome) : Prop :=
  ∃ fuel r, process_batch_with_retry batch outcomes fuel = some r

/-- Every item of the list is a JSON string. -/
def allStrings (xs : List JVal) : Bool :=
  xs.all (fun v => match v with | .jstr _ => true | _ => false)

/-- The opening delimiter of a flagged span (pipeline.py line 155). -/
def openTag : List Char := "<TO_GENERALIZE>".toList

/-- The closing delimiter of a flagged span (pipeline.py line 155). -/
def closeTag : List Char := "</TO_GENERALIZE>".toList

/-- Index of the first occurrence of `needle` as a contiguous substring of
`hay`, or `none`.  This is the position at which a leftmost regex match of
the literal `needle` starts. -/
def findSub (needle hay : List Char) : Option Nat :=
  if needle.isPrefixOf hay then some 0
  else
    match hay with
    | [] => none
    | _ :: t => (findSub needle t).map (· + 1)

/-- The leftmost match of the pattern
`<TO_GENERALIZE>(.*?)</TO_GENERALIZE>` in a line (pipeline.py line 155),
split as `(prefix before the match, captured group, suffix after the
match)`.  Leftmost non-greedy semantics: the match starts at the first
occurrence of the open tag and the group runs to the first close tag after
it.  (A close tag cannot start strictly inside the open tag's characters,
and if the first open tag is not followed by a close tag then no later open
tag is either, so this is exactly the regex's leftmost match.) -/
def splitFirstSpan (l : List Char) : Option (List Char × List Char × List Char) :=
  match findSub openTag l with
  | none => none
  | some p =>
    match findSub closeTag (l.drop (p + openTag.length)) with
    | none => none
    | some q =>
      some (l.take p, (l.drop (p + openTag.length)).take q,
            (l.drop (p + openTag.length)).drop (q + closeTag.length))

/-- Span extraction from one line (pipeline.py lines 154-158): the captured
group of the leftmost match, if the line contains a delimiter pair.  The
guard `"<TO_GENERALIZE>" in line` of line 154 is subsumed: the regex can
only match when the open tag occurs. -/
def extractSpan (l : List Char) : Option (List Char) :=
  (splitFirstSpan l).map (fun t => t.2.1)

/-- One `re.sub` replacement pass, fuel-indexed: replace the leftmost match
by `rep` and continue after it, as `re.sub` does for every non-overlapping
match (pipeline.py lines 217-222; the replacement is supplied via a lambda,
so `rep` is inserted literally).  Each match consumes at least the two
delimiters, so fuel equal to the line length always suffices. -/
def replaceSpansFuel : Nat → List Char → List Char → List Char
  | 0, l, _ => l
  | fuel + 1, l, rep =>
    match splitFirstSpan l with
    | none => l
    | some (pre, _, suf) => pre ++ rep ++ replaceSpansFuel fuel suf rep

/-- `re.sub(r"<TO_GENERALIZE>.*?</TO_GENERALIZE>", lambda m: rep, l,
flags=re.DOTALL)` (pipeline.py lines 217-222): every non-overlapping
leftmost match replaced by `rep`. -/
def replaceSpans (l rep : List Char) : List Char :=
  replaceSpansFuel l.length l rep

/-- The scanning loop of `process_dataset` (pipeline.py lines 153-158),
carrying the index of the next line: collect `(line index, extracted span)`
for every line with a delimiter pair, in document order. -/
def extractDocAux : Nat → List (List Char) → List (Nat × List Char)
  | _, [] => []
  | i, l :: ls =>
    match extractSpan l with
    | some s => (i, s) :: extractDocAux (i + 1) ls
    | none => extractDocAux (i + 1) ls

/-- The `(dirty_indices, dirty_texts)` parallel lists built by
`process_dataset` (pipeline.py lines 149-158). -/
def extractDoc (lines : List (List Char)) : List Nat × List (List Char) :=
  ((extractDocAux 0 lines).map Prod.fst, (extractDocAux 0 lines).map Prod.snd)

/-- The reconstruction loop of `process_dataset` (pipeline.py lines
205-223): for each extracted index, in order, substitute the corresponding
cleaned text into that line.  `indices.zip texts` pairs
`dirty_indices[i]` with `cleaned_texts[i]`; the padding step of lines
199-201 guarantees the texts list is at least as long as the index list
before this loop runs. -/
def setSpans (pairs : List (Nat × List Char)) (lines : List (List Char)) : List (List Char) :=
  pairs.foldl (fun acc p => acc.set p.1 (replaceSpans (acc.getD p.1 []) p.2)) lines

/-- The reconstruction of `process_dataset` (pipeline.py lines 205-223),
pairing each index with its text: `setSpans` applied to
`dirty_indices[i] ↦ cleaned_texts[i]`. -/
def reassemble (lines : List (List Char)) (indices : List Nat)
    (texts : List (List Char)) : List (List Char) :=
  setSpans (indices.zip texts) lines

/-- The line contains a delimiter pair (is flagged for rewriting). -/
def hasPair (l : List Char) : Bool :=
  (splitFirstSpan l).isSome

/-- The line contains at most one delimiter pair: either no match at all,
or no further match after the first one.  This is the input-document
interface assumed by the spec ("one match per line maximum"). -/
def atMostOnePair (l : List Char) : Bool :=
  match splitFirstSpan l with
  | none => true
  | some (_, _, suf) => !(hasPair suf)

/-- Modelled from the spec: the expected effect of reassembling a line with
its own extracted text — the delimiter pair is removed and the span text
stays in place.  Used to state what the round trip actually produces. -/
def stripPair (l : List Char) : List Char :=
  match splitFirstSpan l with
  | none => l
  | some (pre, s, suf) => pre ++ s ++ suf

/-- The batcher (pipeline.py line 164):
`[dirty_texts[i:i + BATCH_SIZE] for i in range(0, total_dirty, BATCH_SIZE)]`,
i.e. consecutive slices of size `B` with a possibly shorter last slice.
For `B = 0` the Python `range` raises; the embedding returns `[]` there,
and every use in the pipeline has `B = BATCH_SIZE = 50 ≥ 1`. -/
def makeBatches {α : Type} : List α → Nat → List (List α)
  | _, 0 => []
  | [], _ + 1 => []
  | a :: l, B + 1 =>
    (a :: l).take (B + 1) :: makeBatches ((a :: l).drop (B + 1)) (B + 1)
termination_by l _ => l.length
decreasing_by simp [List.length_drop]; omega

/-- The batch-processing loop of `process_dataset` (pipeline.py lines
170-181): iterate over batch indices `0..n-1`; skip indices in the loaded
checkpoint's completed set; otherwise append that batch's result to the
accumulated cleaned texts.  `results idx` is the value
`process_batch_with_retry` returns for batch `idx` (the per-batch service
behavior).  Returns the final accumulated texts and the list of batch
indices processed during this run.  Membership is tested against the
loaded set only: the loop adds each visited index to the set, but indices
are visited in strictly increasing order and never revisited, so the added
elements can never affect a later membership test. -/
def runBatches (results : Nat → List JVal) (n : Nat) (completed : List Nat)
    (acc : List JVal) : List JVal × List Nat :=
  (List.range n).foldl
    (fun st idx =>
      if idx ∈ completed then st else (st.1 ++ results idx, st.2 ++ [idx]))
    (acc, [])

/-- The padding step of `process_dataset` (pipeline.py lines 198-201):
`while len(cleaned_texts) < total_dirty: cleaned_texts.append(dirty_texts[len(cleaned_texts)])`,
i.e. append the missing trailing original texts. -/
def padTexts (dirtyTexts cleaned : List (List Char)) : List (List Char) :=
  if cleaned.length < dirtyTexts.length then
    cleaned ++ dirtyTexts.drop cleaned.length
  else cleaned

/-- `(1 - len(cleaned_texts)/total_dirty) * 100 > 5` (pipeline.py lines
189, 193), the loss-percentage test guarding the extra warning, rewritten
exactly over the integers: for `total > 0`,
`(1 - c/t) * 100 > 5  ↔  100 * (t - c) > 5 * t` (multiply through by
`t > 0`).  The source computes in Python floats; the two agree except
possibly at inputs sitting exactly on the representability boundary of 5%,
and every concrete input used below is far from that boundary.  When
`total_dirty` is 0 the source sets the loss to 0, so the test is false. -/
def lossOver5 (total cleanedLen : Nat) : Bool :=
  if total = 0 then false
  else decide (100 * ((total : Int) - cleanedLen) > 5 * total)

/-- Result of the tail of `process_dataset` (pipeline.py lines 188-228):
whether the count mismatch was reported, whether the over-5%-loss warning
was printed, and the output document that is written. -/
structure FinishReport where
  reportedMismatch : Bool
  warnedOver5 : Bool
  output : List (List Char)

/-- The tail of `process_dataset` after the batch loop (pipeline.py lines
188-228): if the accumulated count differs from the extracted count the
mismatch is reported (with an extra warning when the loss exceeds 5%), a
short accumulation is padded with the corresponding original texts, and in
every case the file is reconstructed and written.  `dirtyIndices` and
`dirtyTexts` are the parallel lists of `extractDoc`, so
`total_dirty = dirtyTexts.length`. -/
def finishRun (lines : List (List Char)) (dirtyIndices : List Nat)
    (dirtyTexts cleaned : List (List Char)) : FinishReport :=
  let total := dirtyTexts.length
  let mismatch := cleaned.length != total
  { reportedMismatch := mismatch
    warnedOver5 := mismatch && lossOver5 total cleaned.length
    output := reassemble lines dirtyIndices (padTexts dirtyTexts cleaned) }

/-- The `i`-th attempt fails with a rate-limit classified error
(pipeline.py lines 110-120): the attempt raises (or its validation raises)
and the message contains `"429"` or, lowercased, `"quota"`. -/
def rateLimitedAttempt (batch : List (List Char)) (outcomes : Nat → Outcome)
    (i : Nat) : Bool :=
  match attempt batch (outcomes i) with
  | .ok _ => false
  | .error msg => isRateLimitMsg msg

/-- A line carrying two delimiter pairs, used to exhibit the behavior of
extraction and reassembly on multi-pair lines. -/
def twoPairLine : List Char :=
  "a<TO_GENERALIZE>x</TO_GENERALIZE>b<TO_GENERALIZE>y</TO_GENERALIZE>c".toList

theorem repair_length (batch : List (List Char)) (xs : List JVal) :
    (repair batch xs).length = batch.length := by
  by_cases h : xs.length > batch.length <;>
    simp [repair, h, List.length_take, List.length_append, List.length_map,
      List.length_drop] <;> omega

theorem attempt_ok_length (batch : List (List Char)) (o : Outcome)
    (res : List JVal) (h : attempt batch o = .ok res) :
    res.length = batch.length := by
  cases o with
  | raised msg => simp [attempt] at h
  | parsed v =>
    cases v with
    | jlist xs =>
      by_cases hl : 10 * xs.length ≥ 9 * batch.length
      · simp [attempt, hl] at h
        exact h ▸ repair_length batch xs
      · simp [attempt, hl] at h
    | jstr s => simp [attempt] at h
    | jnum n => simp [attempt] at h
    | jnull => simp [attempt] at h

theorem runLoop_some_length (batch : List (List Char)) (outcomes : Nat → Outcome) :
    ∀ fuel i r res n, runLoop batch outcomes fuel i r = some (res, n) →
      res.length = batch.length := by
  intro fuel
  induction fuel with
  | zero => intro i r res n h; simp [runLoop] at h
  | succ fuel ih =>
    intro i r res n h
    simp only [runLoop] at h
    by_cases hr : r < maxRetries
    · rw [if_pos hr] at h
      cases ha : attempt batch (outcomes i) with
      | ok v =>
        rw [ha] at h
        simp only [Option.some.injEq, Prod.mk.injEq] at h
        exact h.1 ▸ attempt_ok_length batch (outcomes i) v ha
      | error msg =>
        rw [ha] at h
        by_cases hrl : isRateLimitMsg msg = true
        · simp only [hrl, if_true] at h; exact ih _ _ _ _ h
        · simp only [hrl, if_false] at h; exact ih _ _ _ _ h
    · rw [if_neg hr] at h
      simp only [Option.some.injEq, Prod.mk.injEq] at h
      rw [← h.1, List.length_map]

/-- C1 (corrected): the length-K part holds, the "list of strings" part
does not — a service response that parses to a JSON list of the right size
but with non-string items is accepted, repaired and returned as-is, so the
returned list can contain non-strings.  For the batch `["a"]` and a service
that answers with the JSON array `[7]`, the call returns `[7]` after one
attempt, and `[7]` is not a list of strings. -/
theorem C1_counterexample :
    process_batch_with_retry ["a".toList]
      (fun _ => .parsed (.jlist [.jnum 7])) 1 = some ([JVal.jnum 7], 1) ∧
    allStrings [JVal.jnum 7] = false :=
  ⟨rfl, rfl⟩

/-- C1 (amended): whenever `process_batch_with_retry` returns a result —
on the successful (possibly repaired) path and on the exhausted-retry
fallback alike — the result is an ordered list of parsed items of length
exactly K, for every batch of size K and every service behavior.  (The
items are JSON values; they are all strings on the fallback path and
whenever the service returns strings, but a malformed response can put
non-string items in the list.) -/
theorem C1_spec (batch : List (List Char)) (outcomes : Nat → Outcome)
    (fuel : Nat) (res : List JVal) (n : Nat)
    (h : process_batch_with_retry batch outcomes fuel = some (res, n)) :
    res.length = batch.length :=
  runLoop_some_length batch outcomes fuel 0 0 res n h

theorem C1_witness :
    ([JVal.jstr "a".toList] : List JVal).length = ["a".toList].length :=
  C1_spec ["a".toList] (fun _ => .raised "x".toList) 3 [JVal.jstr "a".toList] 2 rfl

theorem runLoop_step_ok (batch : List (List Char)) (outcomes : Nat → Outcome)
    (fuel i r : Nat) (v : List JVal)
    (h : attempt batch (outcomes i) = .ok v) (hr : r < maxRetries) :
    runLoop batch outcomes (fuel + 1) i r = some (v, i + 1) := by
  simp [runLoop, hr, h]

theorem runLoop_step_fail (batch : List (List Char)) (outcomes : Nat → Outcome)
    (fuel i r : Nat) (msg : List Char)
    (h : attempt batch (outcomes i) = .error msg)
    (hrl : isRateLimitMsg msg = false) (hr : r < maxRetries) :
    runLoop batch outcomes (fuel + 1) i r =
      runLoop batch outcomes fuel (i + 1) (r + 1) := by
  simp [runLoop, hr, h, hrl]

theorem runLoop_step_ratelimit (batch : List (List Char)) (outcomes : Nat → Outcome)
    (fuel i r : Nat) (msg : List Char)
    (h : attempt batch (outcomes i) = .error msg)
    (hrl : isRateLimitMsg msg = true) (hr : r < maxRetries) :
    runLoop batch outcomes (fuel + 1) i r =
      runLoop batch outcomes fuel (i + 1) r := by
  simp [runLoop, hr, h, hrl]

theorem runLoop_exhausted (batch : List (List Char)) (outcomes : Nat → Outcome)
    (fuel i r : Nat) (hr : ¬ r < maxRetries) :
    runLoop batch outcomes (fuel + 1) i r = some (batch.map JVal.jstr, i) := by
  simp [runLoop, hr]

/-- C5 (confirmed): when every service attempt fails with a non-rate-limit
error, the controller makes exactly `max_retries = 2` attempts and then
returns the original batch texts unchanged, in their original order (the
fallback of pipeline.py line 128). -/
theorem C5_spec (batch : List (List Char)) (outcomes : Nat → Outcome)
    (fuel : Nat) (hfuel : 3 ≤ fuel)
    (hfail : ∀ i, ∃ msg, attempt batch (outcomes i) = .error msg ∧
      isRateLimitMsg msg = false) :
    process_batch_with_retry batch outcomes fuel =
      some (batch.map JVal.jstr, maxRetries) := by
  obtain ⟨k, rfl⟩ : ∃ k, fuel = k + 3 := ⟨fuel - 3, by omega⟩
  obtain ⟨m0, h0, h0'⟩ := hfail 0
  obtain ⟨m1, h1, h1'⟩ := hfail 1
  show runLoop batch outcomes (k + 2 + 1) 0 0 = _
  rw [runLoop_step_fail batch outcomes (k + 2) 0 0 m0 h0 h0' (by decide)]
  show runLoop batch outcomes (k + 1 + 1) 1 1 = _
  rw [runLoop_step_fail batch outcomes (k + 1) 1 1 m1 h1 h1' (by decide)]
  show runLoop batch outcomes (k + 1) 2 2 = _
  rw [runLoop_exhausted batch outcomes k 2 2 (by decide)]
  rfl

theorem C5_witness :
    process_batch_with_retry ["a".toList] (fun _ => .raised "boom".toList) 3 =
      some ([JVal.jstr "a".toList], maxRetries) :=
  C5_spec ["a".toList] (fun _ => .raised "boom".toList) 3 (by decide)
    (fun _ => ⟨"boom".toList, rfl, by decide⟩)

/-- C6 (corrected): the claim fails for persistent rate-limit conditions.
When every attempt raises an error classified as a rate limit (here the
message `"429"`), the rate-limit branch restores the retry budget
(pipeline.py lines 115-120), so the loop never exits: no amount of fuel
makes it return.  The pipeline blocks indefinitely on such a batch. -/
theorem C6_counterexample :
    ¬ loopTerminates ["a".toList] (fun _ => .raised "429".toList) := by
  have key : ∀ fuel i,
      runLoop ["a".toList] (fun _ => .raised "429".toList) fuel i 0 = none := by
    intro fuel
    induction fuel with
    | zero => intro i; rfl
    | succ fuel ih =>
      intro i
      rw [runLoop_step_ratelimit ["a".toList] (fun _ => .raised "429".toList)
        fuel i 0 "429".toList rfl (by decide) (by decide)]
      exact ih (i + 1)
  rintro ⟨fuel, x, hx⟩
  rw [process_batch_with_retry, key fuel 0] at hx
  exact Option.noConfusion hx

theorem runLoop_term_tail (batch : List (List Char)) (outcomes : Nat → Outcome)
    (B : Nat)
    (hB : ∀ i, B ≤ i → rateLimitedAttempt batch outcomes i = false) :
    ∀ k i r, maxRetries - r ≤ k → B ≤ i →
      (runLoop batch outcomes (k + 1) i r).isSome = true := by
  intro k
  induction k with
  | zero =>
    intro i r hk _
    have hr : ¬ r < maxRetries := by omega
    rw [runLoop_exhausted batch outcomes 0 i r hr]
    rfl
  | succ k ih =>
    intro i r hk hi
    by_cases hr : r < maxRetries
    · cases ha : attempt batch (outcomes i) with
      | ok v => rw [runLoop_step_ok batch outcomes (k + 1) i r v ha hr]; rfl
      | error msg =>
        have hrl : isRateLimitMsg msg = false := by
          have hfalse := hB i hi
          simp only [rateLimitedAttempt, ha] at hfalse
          exact hfalse
        rw [runLoop_step_fail batch outcomes (k + 1) i r msg ha hrl hr]
        exact ih (i + 1) (r + 1) (by omega) (by omega)
    · rw [runLoop_exhausted batch outcomes (k + 1) i r hr]; rfl

theorem runLoop_term (batch : List (List Char)) (outcomes : Nat → Outcome)
    (B : Nat)
    (hB : ∀ i, B ≤ i → rateLimitedAttempt batch outcomes i = false) :
    ∀ d i r, B ≤ i + d →
      (runLoop batch outcomes (d + maxRetries + 1) i r).isSome = true := by
  intro d
  induction d with
  | zero =>
    intro i r h
    exact runLoop_term_tail batch outcomes B hB maxRetries i r (by omega) (by omega)
  | succ d ih =>
    intro i r h
    have harith : d + 1 + maxRetries + 1 = (d + maxRetries + 1) + 1 := by omega
    rw [harith]
    by_cases hr : r < maxRetries
    · cases ha : attempt batch (outcomes i) with
      | ok v =>
        rw [runLoop_step_ok batch outcomes (d + maxRetries + 1) i r v ha hr]; rfl
      | error msg =>
        by_cases hrl : isRateLimitMsg msg = true
        · rw [runLoop_step_ratelimit batch outcomes (d + maxRetries + 1) i r msg ha hrl hr]
          exact ih (i + 1) r (by omega)
        · rw [runLoop_step_fail batch outcomes (d + maxRetries + 1) i r msg ha
            (by simpa using hrl) hr]
          exact ih (i + 1) (r + 1) (by omega)
    · rw [runLoop_exhausted batch outcomes (d + maxRetries + 1) i r hr]; rfl

/-- C6 (amended): the retry loop terminates and returns a result for every
batch and every service behavior in which rate-limit classified failures
stop occurring from some attempt index on (in particular whenever only
finitely many attempts are rate limited).  With persistently rate-limited
attempts the loop never returns — by design, rate limits do not consume
the retry budget. -/
theorem C6_spec (batch : List (List Char)) (outcomes : Nat → Outcome)
    (B : Nat)
    (hB : ∀ i, B ≤ i → rateLimitedAttempt batch outcomes i = false) :
    loopTerminates batch outcomes := by
  have h := runLoop_term batch outcomes B hB B 0 0 (by omega)
  obtain ⟨x, hx⟩ := Option.isSome_iff_exists.mp h
  exact ⟨B + maxRetries + 1, x, hx⟩

theorem C6_witness :
    loopTerminates ["a".toList] (fun _ => .raised "x".toList) :=
  C6_spec ["a".toList] (fun _ => .raised "x".toList) 0 (fun _ _ => rfl)

/-- C4 (confirmed): for a batch of size K and a parsed list response of m
items, if `m ≥ ceil(0.9*K)` the client accepts and repairs it to exactly K
items — truncating extra items from the end when `m > K` and padding the
missing trailing positions `m ≤ i < K` with the corresponding original
input items — and if `m < ceil(0.9*K)` it raises the protocol error
`"Too few items: m/K"`, which the retry logic handles as a failed attempt.
(`(9*K+9)/10` is `ceil(0.9*K)` in exact arithmetic; the source's float test
`m >= K*0.9` agrees with it, see the note on `attempt`.) -/
theorem C4_spec (batch : List (List Char)) (xs : List JVal) :
    ((9 * batch.length + 9) / 10 ≤ xs.length →
      attempt batch (.parsed (.jlist xs)) = .ok (repair batch xs) ∧
      (repair batch xs).length = batch.length ∧
      (batch.length < xs.length → repair batch xs = xs.take batch.length) ∧
      (∀ i, xs.length ≤ i → i < batch.length →
        (repair batch xs).getD i JVal.jnull = JVal.jstr (batch.getD i []))) ∧
    (xs.length < (9 * batch.length + 9) / 10 →
      attempt batch (.parsed (.jlist xs)) =
        .error ("Too few items: ".toList ++ natStr xs.length ++ "/".toList ++
          natStr batch.length)) := by
  constructor
  · intro hge
    have hacc : 10 * xs.length ≥ 9 * batch.length := by omega
    refine ⟨by simp [attempt, hacc], repair_length batch xs, ?_, ?_⟩
    · intro hgt
      simp [repair, hgt]
    · intro i hi hilt
      have hle : ¬ xs.length > batch.length := by omega
      simp only [repair, if_neg hle]
      rw [List.getD_append_right _ _ _ _ hi]
      have h1 : i - xs.length < (List.map JVal.jstr (batch.drop xs.length)).length := by
        simp only [List.length_map, List.length_drop]; omega
      rw [List.getD_eq_getElem _ _ h1, List.getElem_map, List.getElem_drop,
        List.getD_eq_getElem _ _ hilt]
      have hidx : xs.length + (i - xs.length) = i := by omega
      simp [hidx]
  · intro hlt
    have hacc : ¬ 10 * xs.length ≥ 9 * batch.length := by omega
    simp [attempt, hacc]

theorem C4_witness :
    (repair ["a".toList, "b".toList, "c".toList, "d".toList, "e".toList,
      "f".toList, "g".toList, "h".toList, "i".toList, "j".toList]
      (List.replicate 9 (JVal.jstr "r".toList))).length = 10 ∧
    (repair ["a".toList, "b".toList, "c".toList, "d".toList, "e".toList,
      "f".toList, "g".toList, "h".toList, "i".toList, "j".toList]
      (List.replicate 9 (JVal.jstr "r".toList))).getD 9 JVal.jnull =
      JVal.jstr "j".toList := by
  have h := (C4_spec ["a".toList, "b".toList, "c".toList, "d".toList,
    "e".toList, "f".toList, "g".toList, "h".toList, "i".toList, "j".toList]
    (List.replicate 9 (JVal.jstr "r".toList))).1 (by decide)
  exact ⟨h.2.1, h.2.2.2 9 (by decide) (by decide)⟩

theorem isPrefixOf_eq_append {n m : List Char} (h : n.isPrefixOf m = true) :
    m = n ++ m.drop n.length := by
  rw [List.isPrefixOf_iff_prefix] at h
  obtain ⟨t, rfl⟩ := h
  rw [List.drop_left]

theorem findSub_some_prefix (needle : List Char) :
    ∀ hay i, findSub needle hay = some i →
      needle.isPrefixOf (hay.drop i) = true := by
  intro hay
  induction hay with
  | nil =>
    intro i h
    by_cases hp : needle.isPrefixOf [] = true
    · simp only [findSub, hp, if_true, Option.some.injEq] at h
      subst h
      exact hp
    · simp [findSub, hp] at h
  | cons a t ih =>
    intro i h
    by_cases hp : needle.isPrefixOf (a :: t) = true
    · simp only [findSub, hp, if_true, Option.some.injEq] at h
      subst h
      exact hp
    · simp only [findSub, hp, if_false] at h
      cases hf : findSub needle t with
      | none => rw [hf] at h; simp at h
      | some j =>
        rw [hf] at h
        simp at h
        subst h
        rw [List.drop_succ_cons]
        exact ih j hf

theorem splitFirstSpan_append (l pre s suf : List Char)
    (h : splitFirstSpan l = some (pre, s, suf)) :
    l = pre ++ openTag ++ s ++ closeTag ++ suf := by
  cases hp : findSub openTag l with
  | none =>
    have hnone : splitFirstSpan l = none := by simp [splitFirstSpan, hp]
    rw [hnone] at h
    exact absurd h (by simp)
  | some p =>
    cases hq : findSub closeTag (l.drop (p + openTag.length)) with
    | none =>
      have hnone : splitFirstSpan l = none := by simp [splitFirstSpan, hp, hq]
      rw [hnone] at h
      exact absurd h (by simp)
    | some q =>
      have hval : splitFirstSpan l = some (l.take p,
          (l.drop (p + openTag.length)).take q,
          (l.drop (p + openTag.length)).drop (q + closeTag.length)) := by
        simp [splitFirstSpan, hp, hq]
      rw [hval] at h
      simp only [Option.some.injEq, Prod.mk.injEq] at h
      obtain ⟨h1, h2, h3⟩ := h
      have hopen := findSub_some_prefix openTag l p hp
      have hclose := findSub_some_prefix closeTag (l.drop (p + openTag.length)) q hq
      have e1 : l.drop p = openTag ++ l.drop (p + openTag.length) := by
        have e := isPrefixOf_eq_append hopen
        rwa [List.drop_drop] at e
      have e2 : (l.drop (p + openTag.length)).drop q =
          closeTag ++ (l.drop (p + openTag.length)).drop (q + closeTag.length) := by
        have e := isPrefixOf_eq_append hclose
        rw [e]
        congr 1
        simp [List.drop_drop, Nat.add_assoc]
      calc l = l.take p ++ l.drop p := (List.take_append_drop p l).symm
        _ = l.take p ++ (openTag ++ l.drop (p + openTag.length)) := by rw [← e1]
        _ = l.take p ++ (openTag ++ ((l.drop (p + openTag.length)).take q ++
              (l.drop (p + openTag.length)).drop q)) := by
            rw [List.take_append_drop]
        _ = l.take p ++ (openTag ++ ((l.drop (p + openTag.length)).take q ++
              (closeTag ++ (l.drop (p + openTag.length)).drop (q + closeTag.length)))) := by
            rw [← e2]
        _ = pre ++ openTag ++ s ++ closeTag ++ suf := by
            rw [h1, h2, h3]; simp [List.append_assoc]

theorem splitFirstSpan_suffix_lt (l pre s suf : List Char)
    (h : splitFirstSpan l = some (pre, s, suf)) : suf.length < l.length := by
  have he := splitFirstSpan_append l pre s suf h
  have : l.length = pre.length + openTag.length + s.length + closeTag.length +
      suf.length := by
    rw [he]; simp only [List.length_append]
  have hop : openTag.length = 15 := by decide
  omega

theorem replaceSpansFuel_none (fuel : Nat) (l rep : List Char)
    (h : splitFirstSpan l = none) : replaceSpansFuel fuel l rep = l := by
  cases fuel with
  | zero => rfl
  | succ fuel => simp [replaceSpansFuel, h]

theorem replaceSpansFuel_congr :
    ∀ (n : Nat) (l : List Char), l.length ≤ n → ∀ fuel rep, l.length ≤ fuel →
      replaceSpansFuel fuel l rep = replaceSpansFuel l.length l rep := by
  intro n
  induction n with
  | zero =>
    intro l hl fuel rep hf
    have hnil : l = [] := List.length_eq_zero.mp (by omega)
    subst hnil
    rw [replaceSpansFuel_none fuel [] rep rfl]
    rfl
  | succ n ih =>
    intro l hl fuel rep hf
    cases hs : splitFirstSpan l with
    | none => rw [replaceSpansFuel_none _ _ _ hs, replaceSpansFuel_none _ _ _ hs]
    | some t =>
      obtain ⟨pre, s, suf⟩ := t
      have hlt := splitFirstSpan_suffix_lt l pre s suf hs
      obtain ⟨f', rfl⟩ : ∃ f', fuel = f' + 1 := ⟨fuel - 1, by omega⟩
      obtain ⟨m, hm⟩ : ∃ m, l.length = m + 1 := ⟨l.length - 1, by omega⟩
      rw [hm]
      simp only [replaceSpansFuel, hs]
      rw [ih suf (by omega) f' rep (by omega), ih suf (by omega) m rep (by omega)]

theorem replaceSpans_eq_fuel (fuel : Nat) (l rep : List Char) (h : l.length ≤ fuel) :
    replaceSpansFuel fuel l rep = replaceSpans l rep :=
  replaceSpansFuel_congr l.length l le_rfl fuel rep h

theorem replaceSpans_none (l rep : List Char) (h : splitFirstSpan l = none) :
    replaceSpans l rep = l :=
  replaceSpansFuel_none l.length l rep h

theorem replaceSpans_unfold (l pre s suf rep : List Char)
    (h : splitFirstSpan l = some (pre, s, suf)) :
    replaceSpans l rep = pre ++ rep ++ replaceSpans suf rep := by
  have hlt := splitFirstSpan_suffix_lt l pre s suf h
  obtain ⟨m, hm⟩ : ∃ m, l.length = m + 1 := ⟨l.length - 1, by omega⟩
  unfold replaceSpans
  rw [hm]
  simp only [replaceSpansFuel, h]
  rw [replaceSpans_eq_fuel m suf rep (by omega)]
  rfl

theorem replaceSpans_single (l pre s suf rep : List Char)
    (h : splitFirstSpan l = some (pre, s, suf))
    (hone : atMostOnePair l = true) :
    replaceSpans l rep = pre ++ rep ++ suf := by
  rw [replaceSpans_unfold l pre s suf rep h]
  have hsuf : splitFirstSpan suf = none := by
    simp only [atMostOnePair, h, hasPair, Bool.not_eq_true'] at hone
    exact Option.not_isSome_iff_eq_none.mp (by simp [hone])
  rw [replaceSpans_none suf rep hsuf]

theorem getD_set_ne (l : List (List Char)) (k j : Nat) (v d : List Char)
    (h : k ≠ j) : (l.set k v).getD j d = l.getD j d := by
  simp [List.getD_eq_getElem?_getD, List.getElem?_set_ne h]

theorem getD_set_self (l : List (List Char)) (j : Nat) (v d : List Char)
    (h : j < l.length) : (l.set j v).getD j d = v := by
  simp [List.getD_eq_getElem?_getD, List.getElem?_set_self h]

theorem extractDocAux_mem :
    ∀ (ls : List (List Char)) (start j : Nat) (s : List Char),
      (j, s) ∈ extractDocAux start ls →
      start ≤ j ∧ j - start < ls.length ∧
        extractSpan (ls.getD (j - start) []) = some s := by
  intro ls
  induction ls with
  | nil => intro start j s h; simp [extractDocAux] at h
  | cons l rest ih =>
    intro start j s h
    cases he : extractSpan l with
    | some sp =>
      simp only [extractDocAux, he] at h
      cases List.mem_cons.mp h with
      | inl heq =>
        obtain ⟨rfl, rfl⟩ : j = start ∧ s = sp := by
          constructor <;> [exact congrArg Prod.fst heq; exact congrArg Prod.snd heq]
        refine ⟨le_rfl, by simp, ?_⟩
        simpa using he
      | inr hmem =>
        obtain ⟨hle, hlt, hs⟩ := ih (start + 1) j s hmem
        refine ⟨by omega, by simp; omega, ?_⟩
        have hidx : j - start = (j - (start + 1)) + 1 := by omega
        rw [hidx, List.getD_cons_succ]
        exact hs
    | none =>
      simp only [extractDocAux, he] at h
      obtain ⟨hle, hlt, hs⟩ := ih (start + 1) j s h
      refine ⟨by omega, by simp; omega, ?_⟩
      have hidx : j - start = (j - (start + 1)) + 1 := by omega
      rw [hidx, List.getD_cons_succ]
      exact hs

theorem extractDocAux_pairwise :
    ∀ (ls : List (List Char)) (start : Nat),
      List.Pairwise (fun a b => a.1 < b.1) (extractDocAux start ls) := by
  intro ls
  induction ls with
  | nil => intro start; simp [extractDocAux]
  | cons l rest ih =>
    intro start
    cases he : extractSpan l with
    | some sp =>
      simp only [extractDocAux, he]
      rw [List.pairwise_cons]
      refine ⟨?_, ih (start + 1)⟩
      intro p hp
      have hm := extractDocAux_mem rest (start + 1) p.1 p.2 (by simpa using hp)
      have : start + 1 ≤ p.1 := hm.1
      simpa using by omega
    | none => simp only [extractDocAux, he]; exact ih (start + 1)

theorem extractDocAux_mem_of :
    ∀ (ls : List (List Char)) (start j : Nat) (s : List Char),
      j < ls.length → extractSpan (ls.getD j []) = some s →
      (start + j, s) ∈ extractDocAux start ls := by
  intro ls
  induction ls with
  | nil => intro start j s hj _; simp at hj
  | cons l rest ih =>
    intro start j s hj hs
    cases j with
    | zero =>
      simp only [List.getD_cons_zero] at hs
      simp only [extractDocAux, hs]
      simp
    | succ j =>
      have hmem := ih (start + 1) j s (by simpa using hj) (by simpa using hs)
      have hidx : start + (j + 1) = (start + 1) + j := by omega
      rw [hidx]
      cases he : extractSpan l with
      | some sp =>
        simp only [extractDocAux, he]
        exact List.mem_cons_of_mem _ hmem
      | none =>
        simp only [extractDocAux, he]
        exact hmem

theorem setSpans_length (ps : List (Nat × List Char)) :
    ∀ lines, (setSpans ps lines).length = lines.length := by
  induction ps with
  | nil => intro lines; rfl
  | cons p ps ih =>
    intro lines
    show (setSpans ps (lines.set p.1 (replaceSpans (lines.getD p.1 []) p.2))).length =
      lines.length
    rw [ih, List.length_set]

theorem setSpans_getD_not_mem (ps : List (Nat × List Char)) :
    ∀ lines j, (∀ q ∈ ps, q.1 ≠ j) →
      (setSpans ps lines).getD j [] = lines.getD j [] := by
  induction ps with
  | nil => intro lines j _; rfl
  | cons p ps ih =>
    intro lines j hne
    show (setSpans ps (lines.set p.1 (replaceSpans (lines.getD p.1 []) p.2))).getD j [] =
      lines.getD j []
    rw [ih _ j (fun q hq => hne q (List.mem_cons_of_mem _ hq))]
    exact getD_set_ne lines p.1 j _ [] (hne p (List.mem_cons_self _ _))

theorem setSpans_getD_mem (ps : List (Nat × List Char)) :
    ∀ lines j t, List.Pairwise (fun a b => a.1 ≠ b.1) ps → (j, t) ∈ ps →
      j < lines.length →
      (setSpans ps lines).getD j [] = replaceSpans (lines.getD j []) t := by
  induction ps with
  | nil => intro lines j t _ h _; simp at h
  | cons p ps ih =>
    intro lines j t hpw hmem hj
    rw [List.pairwise_cons] at hpw
    cases List.mem_cons.mp hmem with
    | inl heq =>
      have hp : p = (j, t) := heq.symm
      subst hp
      show (setSpans ps (lines.set j (replaceSpans (lines.getD j []) t))).getD j [] =
        replaceSpans (lines.getD j []) t
      rw [setSpans_getD_not_mem ps _ j (fun q hq => (hpw.1 q hq).symm)]
      exact getD_set_self lines j _ [] hj
    | inr hmem' =>
      have hne : p.1 ≠ j := by
        have := hpw.1 (j, t) hmem'
        simpa using this
      show (setSpans ps (lines.set p.1 (replaceSpans (lines.getD p.1 []) p.2))).getD j [] =
        replaceSpans (lines.getD j []) t
      rw [ih _ j t hpw.2 hmem' (by rw [List.length_set]; exact hj)]
      rw [getD_set_ne lines p.1 j _ [] hne]

theorem zip_fst_snd (ps : List (Nat × List Char)) :
    (ps.map Prod.fst).zip (ps.map Prod.snd) = ps := by
  rw [List.zip_map']
  simp

/-- C10 (confirmed): on a line with two delimiter pairs, extraction yields
exactly one span — the captured group of the first, non-greedy match
(`"x"`) — while reassembly's `re.sub` replaces every delimiter pair on the
line with the same replacement text, so the second pair's content (`"y"`)
is discarded rather than preserved. -/
theorem C10_spec :
    extractDoc [twoPairLine] = ([0], ["x".toList]) ∧
    ∀ rep : List Char, replaceSpans twoPairLine rep =
      "a".toList ++ rep ++ "b".toList ++ rep ++ "c".toList := by
  constructor
  · decide
  · intro rep
    have h1 : splitFirstSpan twoPairLine =
        some ("a".toList, "x".toList,
          "b<TO_GENERALIZE>y</TO_GENERALIZE>c".toList) := by decide
    have h2 : splitFirstSpan "b<TO_GENERALIZE>y</TO_GENERALIZE>c".toList =
        some ("b".toList, "y".toList, "c".toList) := by decide
    have h3 : splitFirstSpan "c".toList = none := by decide
    rw [show twoPairLine =
      "a<TO_GENERALIZE>x</TO_GENERALIZE>b<TO_GENERALIZE>y</TO_GENERALIZE>c".toList from rfl]
      at h1 ⊢
    rw [replaceSpans_unfold _ _ _ _ rep h1, replaceSpans_unfold _ _ _ _ rep h2,
      replaceSpans_none _ rep h3]
    simp [List.append_assoc]

theorem extractSpan_some (l s : List Char) (h : extractSpan l = some s) :
    ∃ pre suf, splitFirstSpan l = some (pre, s, suf) := by
  unfold extractSpan at h
  cases hs : splitFirstSpan l with
  | none => rw [hs] at h; simp at h
  | some t =>
    obtain ⟨t1, t2, t3⟩ := t
    rw [hs] at h
    simp only [Option.map_some', Option.some.injEq] at h
    subst h
    exact ⟨t1, t3, rfl⟩

theorem hasPair_of_extractSpan (l s : List Char) (h : extractSpan l = some s) :
    hasPair l = true := by
  obtain ⟨pre, suf, hs⟩ := extractSpan_some l s h
  simp [hasPair, hs]

theorem getD_mem_of_lt (lines : List (List Char)) (j : Nat) (h : j < lines.length) :
    lines.getD j [] ∈ lines := by
  rw [List.getD_eq_getElem _ _ h]
  exact List.getElem_mem h

theorem reassemble_extract_getD (lines : List (List Char))
    (hone : ∀ l ∈ lines, atMostOnePair l = true) (j : Nat) :
    (reassemble lines (extractDoc lines).1 (extractDoc lines).2).getD j [] =
      stripPair (lines.getD j []) := by
  show (setSpans ((extractDoc lines).1.zip (extractDoc lines).2) lines).getD j [] = _
  rw [show (extractDoc lines).1.zip (extractDoc lines).2 = extractDocAux 0 lines from
    zip_fst_snd _]
  by_cases hj : j < lines.length
  · cases hs : splitFirstSpan (lines.getD j []) with
    | none =>
      rw [setSpans_getD_not_mem _ _ _ ?notmem]
      · simp only [stripPair, hs]
      case notmem =>
        intro q hq hqj
        obtain ⟨_, _, hspan⟩ := extractDocAux_mem lines 0 q.1 q.2 (by simpa using hq)
        rw [hqj] at hspan
        simp only [Nat.sub_zero] at hspan
        obtain ⟨pre, suf, hsome⟩ := extractSpan_some _ _ hspan
        rw [hs] at hsome
        exact Option.noConfusion hsome
    | some t =>
      obtain ⟨pre, s, suf⟩ := t
      have hspan : extractSpan (lines.getD j []) = some s := by
        simp only [extractSpan, hs, Option.map_some']
      have hmem : (j, s) ∈ extractDocAux 0 lines := by
        have := extractDocAux_mem_of lines 0 j s hj hspan
        simpa using this
      have hpw : List.Pairwise (fun a b : Nat × List Char => a.1 ≠ b.1)
          (extractDocAux 0 lines) :=
        (extractDocAux_pairwise lines 0).imp (fun h => Nat.ne_of_lt h)
      rw [setSpans_getD_mem _ _ _ _ hpw hmem hj]
      rw [replaceSpans_single _ pre s suf s hs (hone _ (getD_mem_of_lt lines j hj))]
      simp only [stripPair, hs]
  · have hout : (setSpans (extractDocAux 0 lines) lines).length ≤ j := by
      rw [setSpans_length]; omega
    rw [List.getD_eq_default _ _ hout, List.getD_eq_default _ _ (by omega)]
    rfl

/-- C2 (corrected): the round trip is not the identity — reassembling with
the unmodified extracted texts removes the delimiters.  For the one-line
document `["a<TO_GENERALIZE>x</TO_GENERALIZE>b"]`, reassembly with its own
extracted spans yields `["axb"]`, not the document itself: `re.sub`
replaces the whole match, delimiters included (pipeline.py lines 217-222). -/
theorem C2_counterexample :
    reassemble ["a<TO_GENERALIZE>x</TO_GENERALIZE>b".toList]
      (extractDoc ["a<TO_GENERALIZE>x</TO_GENERALIZE>b".toList]).1
      (extractDoc ["a<TO_GENERALIZE>x</TO_GENERALIZE>b".toList]).2 ≠
      ["a<TO_GENERALIZE>x</TO_GENERALIZE>b".toList] := by decide

/-- C2 (amended): for every document whose lines contain at most one
delimiter pair each (the spec's input interface), reassembling with the
span indices and the unmodified extracted span texts yields the document
with each delimiter pair stripped — on every flagged line the matched
region `<TO_GENERALIZE>s</TO_GENERALIZE>` becomes `s`, every other line is
unchanged — so the round trip equals `D` itself exactly when `D` contains
no delimiter pair. -/
theorem C2_spec (lines : List (List Char))
    (hone : ∀ l ∈ lines, atMostOnePair l = true) :
    reassemble lines (extractDoc lines).1 (extractDoc lines).2 =
      lines.map stripPair := by
  apply List.ext_getElem
  · show (setSpans _ lines).length = _
    rw [setSpans_length, List.length_map]
  · intro j h1 h2
    have hgd := reassemble_extract_getD lines hone j
    have hj : j < lines.length := by simpa using h2
    rw [List.getD_eq_getElem _ _ h1] at hgd
    rw [hgd, List.getElem_map, List.getD_eq_getElem _ _ hj]

theorem C2_witness :
    reassemble ["a<TO_GENERALIZE>x</TO_GENERALIZE>b".toList, "plain".toList]
      (extractDoc ["a<TO_GENERALIZE>x</TO_GENERALIZE>b".toList, "plain".toList]).1
      (extractDoc ["a<TO_GENERALIZE>x</TO_GENERALIZE>b".toList, "plain".toList]).2 =
      ["a<TO_GENERALIZE>x</TO_GENERALIZE>b".toList, "plain".toList].map stripPair :=
  C2_spec ["a<TO_GENERALIZE>x</TO_GENERALIZE>b".toList, "plain".toList] (by decide)

/-- C9 (confirmed): for every input document obeying the input interface
(at most one delimiter pair per line) and any length-matched list of
rewritten texts, the output document has the same line count (and hence
the same order of untouched lines), every line without a flagged span is
preserved character-for-character, and each flagged line
`pre ++ <TO_GENERALIZE> ++ s ++ </TO_GENERALIZE> ++ suf` becomes
`pre ++ rewritten ++ suf`: only the delimiter-wrapped span changes, the
delimiters are removed, and all other content on the line is preserved. -/
theorem C9_spec (lines rs : List (List Char))
    (hone : ∀ l ∈ lines, atMostOnePair l = true)
    (hlen : rs.length = (extractDoc lines).1.length) :
    (reassemble lines (extractDoc lines).1 rs).length = lines.length ∧
    (∀ j, hasPair (lines.getD j []) = false →
      (reassemble lines (extractDoc lines).1 rs).getD j [] = lines.getD j []) ∧
    (∀ k, k < (extractDoc lines).1.length →
      ∃ pre s suf,
        splitFirstSpan (lines.getD ((extractDoc lines).1.getD k 0) []) =
          some (pre, s, suf) ∧
        lines.getD ((extractDoc lines).1.getD k 0) [] =
          pre ++ openTag ++ s ++ closeTag ++ suf ∧
        (reassemble lines (extractDoc lines).1 rs).getD
          ((extractDoc lines).1.getD k 0) [] = pre ++ rs.getD k [] ++ suf) := by
  have hq_mem : ∀ q ∈ (extractDoc lines).1.zip rs,
      q.1 < lines.length ∧ hasPair (lines.getD q.1 []) = true := by
    intro q hq
    have hfst : q.1 ∈ (extractDoc lines).1 := by
      obtain ⟨q1, q2⟩ := q
      exact (List.of_mem_zip hq).1
    obtain ⟨p, hp, hpq⟩ := List.mem_map.mp hfst
    obtain ⟨_, hlt, hspan⟩ := extractDocAux_mem lines 0 p.1 p.2 (by simpa using hp)
    simp only [Nat.sub_zero] at hlt hspan
    rw [← hpq]
    exact ⟨by simpa using hlt, hasPair_of_extractSpan _ _ hspan⟩
  refine ⟨?_, ?_, ?_⟩
  · show (setSpans _ lines).length = lines.length
    exact setSpans_length _ lines
  · intro j hnp
    show (setSpans ((extractDoc lines).1.zip rs) lines).getD j [] = lines.getD j []
    apply setSpans_getD_not_mem
    intro q hq hqj
    obtain ⟨_, hpair⟩ := hq_mem q hq
    rw [hqj] at hpair
    rw [hpair] at hnp
    exact Bool.noConfusion hnp
  · intro k hk
    have hkr : k < rs.length := by omega
    have hkz : k < ((extractDoc lines).1.zip rs).length := by
      rw [List.length_zip]; omega
    have hzk : ((extractDoc lines).1.zip rs)[k] =
        ((extractDoc lines).1[k], rs[k]) := List.getElem_zip
    have hmem : ((extractDoc lines).1[k], rs[k]) ∈
        (extractDoc lines).1.zip rs := by
      rw [← hzk]; exact List.getElem_mem hkz
    have hj : (extractDoc lines).1[k] < lines.length := (hq_mem _ hmem).1
    have hgdk : (extractDoc lines).1.getD k 0 = (extractDoc lines).1[k] :=
      List.getD_eq_getElem _ _ hk
    have hgdr : rs.getD k [] = rs[k] := List.getD_eq_getElem _ _ hkr
    have hspan : ∃ s, extractSpan (lines.getD ((extractDoc lines).1[k]) []) =
        some s := by
      have hfst : (extractDoc lines).1[k] ∈ (extractDoc lines).1 :=
        List.getElem_mem hk
      obtain ⟨p, hp, hpq⟩ := List.mem_map.mp hfst
      obtain ⟨_, _, hspan⟩ := extractDocAux_mem lines 0 p.1 p.2 (by simpa using hp)
      simp only [Nat.sub_zero] at hspan
      exact ⟨p.2, by rw [← hpq]; exact hspan⟩
    obtain ⟨s, hspan⟩ := hspan
    obtain ⟨pre, suf, hsplit⟩ := extractSpan_some _ _ hspan
    refine ⟨pre, s, suf, by rw [hgdk]; exact hsplit, ?_, ?_⟩
    · rw [hgdk]
      exact splitFirstSpan_append _ _ _ _ hsplit
    · have hpw : List.Pairwise (fun a b : Nat × List Char => a.1 ≠ b.1)
          ((extractDoc lines).1.zip rs) := by
        have h1 : List.Pairwise Ne ((extractDoc lines).1) := by
          show List.Pairwise Ne ((extractDocAux 0 lines).map Prod.fst)
          rw [List.pairwise_map]
          exact (extractDocAux_pairwise lines 0).imp (fun h => Nat.ne_of_lt h)
        have h2 : List.Pairwise Ne (((extractDoc lines).1.zip rs).map Prod.fst) := by
          rw [List.map_fst_zip _ _ (by omega)]
          exact h1
        rw [List.pairwise_map] at h2
        exact h2
      have hmem2 : ((extractDoc lines).1[k], rs.getD k []) ∈
          (extractDoc lines).1.zip rs := by
        rw [hgdr]; exact hmem
      show (setSpans ((extractDoc lines).1.zip rs) lines).getD
        ((extractDoc lines).1.getD k 0) [] = pre ++ rs.getD k [] ++ suf
      rw [hgdk]
      rw [setSpans_getD_mem _ _ _ _ hpw hmem2 hj]
      exact replaceSpans_single _ pre s suf _ hsplit
        (hone _ (getD_mem_of_lt lines _ hj))

theorem C9_witness :
    (reassemble
      ["A: <TO_GENERALIZE>hello</TO_GENERALIZE>".toList, "B: normal line".toList]
      (extractDoc
        ["A: <TO_GENERALIZE>hello</TO_GENERALIZE>".toList, "B: normal line".toList]).1
      ["hi".toList]).length = 2 := by
  have h := (C9_spec
    ["A: <TO_GENERALIZE>hello</TO_GENERALIZE>".toList, "B: normal line".toList]
    ["hi".toList] (by decide) (by decide)).1
  exact h

/-- C3 (corrected): a reassembly-count mismatch is not fatal and does not
prevent output.  The formalized claim "under a mismatch with more than 5%
loss, no output document is written" is false: for a two-span document with
an empty accumulation (100% loss), `process_dataset` reports, pads with the
original texts and still writes a complete two-line output document. -/
theorem C3_counterexample :
    ¬ (∀ (lines : List (List Char)) (dirtyIndices : List Nat)
        (dirtyTexts cleaned : List (List Char)),
        cleaned.length ≠ dirtyTexts.length →
        lossOver5 dirtyTexts.length cleaned.length = true →
        (finishRun lines dirtyIndices dirtyTexts cleaned).output.length = 0) := by
  intro h
  have hx := h ["<TO_GENERALIZE>x</TO_GENERALIZE>".toList,
      "<TO_GENERALIZE>y</TO_GENERALIZE>".toList]
    [0, 1] ["x".toList, "y".toList] [] (by decide) (by decide)
  exact absurd hx (by decide)

/-- C3 (amended): if the accumulated count differs from the span count,
the mismatch is reported, the over-5%-loss warning fires exactly when the
loss exceeds 5%, but the run is not aborted: a short accumulation is padded
with the corresponding original span texts to the full span count, and a
complete output document with the input's line count is always written,
whatever the loss percentage. -/
theorem C3_spec (lines : List (List Char)) (dirtyIndices : List Nat)
    (dirtyTexts cleaned : List (List Char))
    (hmis : cleaned.length ≠ dirtyTexts.length) :
    (finishRun lines dirtyIndices dirtyTexts cleaned).reportedMismatch = true ∧
    (finishRun lines dirtyIndices dirtyTexts cleaned).warnedOver5 =
      lossOver5 dirtyTexts.length cleaned.length ∧
    (finishRun lines dirtyIndices dirtyTexts cleaned).output.length = lines.length ∧
    (cleaned.length ≤ dirtyTexts.length →
      (padTexts dirtyTexts cleaned).length = dirtyTexts.length) ∧
    (finishRun lines dirtyIndices dirtyTexts cleaned).output =
      reassemble lines dirtyIndices (padTexts dirtyTexts cleaned) := by
  have hb : (cleaned.length != dirtyTexts.length) = true := by simpa using hmis
  refine ⟨hb, ?_, ?_, ?_, rfl⟩
  · show ((cleaned.length != dirtyTexts.length) &&
      lossOver5 dirtyTexts.length cleaned.length) = _
    rw [hb, Bool.true_and]
  · show (setSpans _ lines).length = lines.length
    exact setSpans_length _ lines
  · intro hle
    unfold padTexts
    by_cases hlt : cleaned.length < dirtyTexts.length
    · simp only [hlt, if_true, List.length_append, List.length_drop]
      omega
    · have he : cleaned.length = dirtyTexts.length := by omega
      simp [hlt, he]

theorem C3_witness :
    (finishRun ["<TO_GENERALIZE>x</TO_GENERALIZE>".toList,
        "<TO_GENERALIZE>y</TO_GENERALIZE>".toList] [0, 1]
      ["x".toList, "y".toList] []).reportedMismatch = true ∧
    (finishRun ["<TO_GENERALIZE>x</TO_GENERALIZE>".toList,
        "<TO_GENERALIZE>y</TO_GENERALIZE>".toList] [0, 1]
      ["x".toList, "y".toList] []).output.length = 2 := by
  have h := C3_spec ["<TO_GENERALIZE>x</TO_GENERALIZE>".toList,
      "<TO_GENERALIZE>y</TO_GENERALIZE>".toList] [0, 1]
    ["x".toList, "y".toList] [] (by decide)
  exact ⟨h.1, h.2.2.1⟩

/-- C7 (confirmed): with the same per-batch results, resuming from the
checkpoint state left by a prior run that completed batches {0, 1} of 3
(completed set `[0, 1]`, accumulated texts `results 0 ++ results 1`)
processes only batch 2, and the final accumulated sequence equals, element
for element, the sequence produced by an uninterrupted run over all 3
batches. -/
theorem C7_spec (results : Nat → List JVal) :
    (runBatches results 3 (runBatches results 2 [] []).2
        (runBatches results 2 [] []).1).2 = [2] ∧
    (runBatches results 3 (runBatches results 2 [] []).2
        (runBatches results 2 [] []).1).1 = (runBatches results 3 [] []).1 := by
  have h2 : runBatches results 2 [] [] = (results 0 ++ results 1, [0, 1]) := by
    simp [runBatches, List.range_succ]
  rw [h2]
  constructor
  · simp [runBatches, List.range_succ]
  · simp [runBatches, List.range_succ, List.append_assoc]

theorem makeBatches_nil (B : Nat) : makeBatches ([] : List (List Char)) B = [] := by
  cases B with
  | zero => simp [makeBatches]
  | succ B => simp [makeBatches]

theorem makeBatches_spec :
    ∀ (n : Nat) (T : List (List Char)), T.length ≤ n → ∀ B, 1 ≤ B →
      (makeBatches T B).flatten = T ∧
      (∀ b ∈ (makeBatches T B).dropLast, b.length = B) ∧
      (∀ b, (makeBatches T B).getLast? = some b →
        b.length = if T.length % B = 0 then B else T.length % B) := by
  intro n
  induction n with
  | zero =>
    intro T hT B hB
    have hnil : T = [] := List.length_eq_zero.mp (by omega)
    subst hnil
    rw [makeBatches_nil]
    exact ⟨rfl, by simp, by simp⟩
  | succ n ih =>
    intro T hT B hB
    cases T with
    | nil =>
      rw [makeBatches_nil]
      exact ⟨rfl, by simp, by simp⟩
    | cons a l =>
      obtain ⟨B', rfl⟩ : ∃ B', B = B' + 1 := ⟨B - 1, by omega⟩
      have heq : makeBatches (a :: l) (B' + 1) =
          (a :: l).take (B' + 1) :: makeBatches ((a :: l).drop (B' + 1)) (B' + 1) := by
        simp [makeBatches]
      have hdlen : ((a :: l).drop (B' + 1)).length ≤ n := by
        rw [List.length_drop]
        simp only [List.length_cons] at hT ⊢
        omega
      obtain ⟨hjoin, hdrop, hlast⟩ :=
        ih ((a :: l).drop (B' + 1)) hdlen (B' + 1) hB
      refine ⟨?_, ?_, ?_⟩
      · rw [heq, List.flatten_cons, hjoin, List.take_append_drop]
      · intro b hb
        rw [heq] at hb
        cases hrec : makeBatches ((a :: l).drop (B' + 1)) (B' + 1) with
        | nil => rw [hrec] at hb; simp at hb
        | cons c cs =>
          rw [hrec, List.dropLast_cons₂] at hb
          cases List.mem_cons.mp hb with
          | inl hbx =>
            subst hbx
            have hne : (a :: l).drop (B' + 1) ≠ [] := by
              intro hnil
              rw [hnil, makeBatches_nil] at hrec
              exact List.noConfusion hrec
            have hlen : B' + 1 < (a :: l).length := by
              by_contra hc
              exact hne (List.drop_eq_nil_of_le (by omega))
            simp only [List.length_take]
            omega
          | inr hbs => exact hdrop b (by rw [hrec]; exact hbs)
      · intro b hb
        rw [heq] at hb
        cases hrec : makeBatches ((a :: l).drop (B' + 1)) (B' + 1) with
        | nil =>
          rw [hrec] at hb
          simp only [List.getLast?_singleton, Option.some.injEq] at hb
          subst hb
          have hdnil : (a :: l).drop (B' + 1) = [] := by
            by_contra hc
            obtain ⟨d, ds, hds⟩ := List.exists_cons_of_ne_nil hc
            rw [hds] at hrec
            simp [makeBatches] at hrec
          have hle : (a :: l).length ≤ B' + 1 := by
            by_contra hc
            have hne : (a :: l).drop (B' + 1) ≠ [] := by
              apply List.ne_nil_of_length_pos
              rw [List.length_drop]
              omega
            exact hne hdnil
          rw [List.take_of_length_le hle]
          have hpos : 0 < (a :: l).length := by simp
          rcases Nat.lt_or_ge (a :: l).length (B' + 1) with hlt | hge
          · rw [Nat.mod_eq_of_lt hlt, if_neg (by omega)]
          · have hexact : (a :: l).length = B' + 1 := by omega
            rw [hexact]
            simp
        | cons c cs =>
          rw [hrec, List.getLast?_cons_cons] at hb
          have hres := hlast b (by rw [hrec]; exact hb)
          have hlt : B' + 1 < (a :: l).length := by
            by_contra hc
            have hdnil : (a :: l).drop (B' + 1) = [] :=
              List.drop_eq_nil_of_le (by omega)
            rw [hdnil, makeBatches_nil] at hrec
            exact List.noConfusion hrec
          have hmod : ((a :: l).drop (B' + 1)).length % (B' + 1) =
              (a :: l).length % (B' + 1) := by
            rw [List.length_drop]
            conv_rhs => rw [show (a :: l).length =
              ((a :: l).length - (B' + 1)) + (B' + 1) from by omega]
            rw [Nat.add_mod_right]
          rw [hres, hmod]

/-- C8 (confirmed): for every text sequence T and batch size B ≥ 1, the
batcher's slices concatenate back to T exactly, every batch except
possibly the last has exactly B items, and the last batch (when any batch
exists) has `T.length % B` items, or B items when B divides the total. -/
theorem C8_spec (T : List (List Char)) (B : Nat) (hB : 1 ≤ B) :
    (makeBatches T B).flatten = T ∧
    (∀ b ∈ (makeBatches T B).dropLast, b.length = B) ∧
    (∀ b, (makeBatches T B).getLast? = some b →
      b.length = if T.length % B = 0 then B else T.length % B) :=
  makeBatches_spec T.length T le_rfl B hB

theorem C8_witness :
    (makeBatches ["a".toList, "b".toList, "c".toList] 2).flatten =
      ["a".toList, "b".toList, "c".toList] :=
  (C8_spec ["a".toList, "b".toList, "c".toList] 2 (by decide)).1
